import Mathlib

/-!
Verification of the IEEE 754 single-precision codec in `IEEE_754.py`.

A single-precision float is represented throughout by its 32-bit pattern
(a `Nat` below `2^32`): `struct.pack('!f', v)` / `struct.unpack('!f', b)`
are mutually inverse bit reinterpretations, so the pattern determines the
float bit-for-bit.  Exact float arithmetic on dyadic values (mantissa
sums, powers of two) is carried out in `ℚ`, where it coincides with the
Python double arithmetic of the source (all intermediate values there are
dyadic rationals exactly representable in a double).
-/

set_option maxRecDepth 8192

namespace IEEE754

/-- ASCII whitespace stripped by Python's `int()` before parsing a numeric
literal (the source calls `int(binary_str, 2)` and `int(hex_str, 16)`).
The model covers the ASCII fragment of CPython's parser. -/
def isPySpace (c : Char) : Bool :=
  c = ' ' || c = '\t' || c = '\n' || c = '\r' || c = '\x0b' || c = '\x0c'

/-- Removal of surrounding whitespace, as CPython's `int()` does. -/
def stripWs (l : List Char) : List Char :=
  ((l.dropWhile isPySpace).reverse.dropWhile isPySpace).reverse

/-- Value of a binary digit character for `int(s, 2)`. -/
def binDigitVal (c : Char) : Option Nat :=
  if c = '0' then some 0 else if c = '1' then some 1 else none

/-- Value of a hexadecimal digit character for `int(s, 16)`. -/
def hexDigitVal (c : Char) : Option Nat :=
  if '0' ≤ c ∧ c ≤ '9' then some (c.toNat - '0'.toNat)
  else if 'a' ≤ c ∧ c ≤ 'f' then some (c.toNat - 'a'.toNat + 10)
  else if 'A' ≤ c ∧ c ≤ 'F' then some (c.toNat - 'A'.toNat + 10)
  else none

/-- Digit-run loop of CPython's `int()`: digits accumulate left to right;
a single underscore is permitted between two digits, never doubled and
never trailing. -/
def pyCore (dv : Char → Option Nat) (base : Nat) : Nat → List Char → Option Nat
  | acc, [] => some acc
  | acc, c :: rest =>
    if c = '_' then
      match rest with
      | [] => none
      | c2 :: rest2 =>
        match dv c2 with
        | some d => pyCore dv base (base * acc + d) rest2
        | none => none
    else
      match dv c with
      | some d => pyCore dv base (base * acc + d) rest
      | none => none

/-- The digit run must begin with a digit (a leading underscore fails). -/
def pyDigits (dv : Char → Option Nat) (base : Nat) : List Char → Option Nat
  | [] => none
  | c :: rest =>
    match dv c with
    | some d => pyCore dv base d rest
    | none => none

/-- After a base marker such as `0b`/`0x`, CPython tolerates one
underscore before the first digit. -/
def pyAfterMark (dv : Char → Option Nat) (base : Nat) (l : List Char) : Option Nat :=
  match l with
  | [] => none
  | c :: rest => if c = '_' then pyDigits dv base rest else pyDigits dv base (c :: rest)

/-- Unsigned body of a CPython `int()` literal: an optional `0❬m❭` base
marker (lower- or upper-case), then the digit run. -/
def pyBody (dv : Char → Option Nat) (base : Nat) (m1 m2 : Char) (l : List Char) : Option Nat :=
  match l with
  | c0 :: c1 :: rest =>
    if c0 = '0' ∧ (c1 = m1 ∨ c1 = m2) then pyAfterMark dv base rest
    else pyDigits dv base (c0 :: c1 :: rest)
  | l => pyDigits dv base l

/-- CPython's `int(s, base)` on the ASCII fragment: strip surrounding
whitespace, read an optional sign, then the unsigned body. -/
def pyIntParse (dv : Char → Option Nat) (base : Nat) (m1 m2 : Char)
    (l : List Char) : Option Int :=
  match stripWs l with
  | [] => none
  | c :: rest =>
    if c = '+' then (pyBody dv base m1 m2 rest).map Int.ofNat
    else if c = '-' then (pyBody dv base m1 m2 rest).map (fun n => -(Int.ofNat n))
    else (pyBody dv base m1 m2 (c :: rest)).map Int.ofNat

/-- Model of `int(s, 2)` as used by `binary_to_float`. -/
def pyIntBase2 : List Char → Option Int := pyIntParse binDigitVal 2 'b' 'B'

/-- Model of `int(s, 16)` as used by `hex_to_float`. -/
def pyIntBase16 : List Char → Option Int := pyIntParse hexDigitVal 16 'x' 'X'

/-- Rendering `format(n, '0❬w❭b')`: the `w` low bits of `n`, most significant
first, as `'0'`/`'1'` characters. -/
def natToBinChars : Nat → Nat → List Char
  | 0, _ => []
  | w + 1, n => natToBinChars w (n / 2) ++ [if n % 2 = 1 then '1' else '0']

/-- Source `IEEE754SinglePrecision._get_binary_representation`:
`struct.pack('!f', value)` / `struct.unpack('!I', ...)` reinterprets the
float as its 32-bit pattern `p`, then `format(as_int, '032b')` renders
the 32-character binary string. -/
def get_binary_representation (p : Nat) : String :=
  ⟨natToBinChars 32 p⟩

/-- Field `self.sign_bit = self.binary_representation[0]`. -/
def sign_bit (p : Nat) : List Char := (natToBinChars 32 p).take 1

/-- Field `self.exponent_bits = self.binary_representation[1:9]`. -/
def exponent_bits (p : Nat) : List Char := ((natToBinChars 32 p).drop 1).take 8

/-- Field `self.mantissa_bits = self.binary_representation[9:32]`. -/
def mantissa_bits (p : Nat) : List Char := ((natToBinChars 32 p).drop 9).take 23

/-- Value of a string of `'0'`/`'1'` characters, as computed by Python's
`int(s, 2)` on the guaranteed-binary field strings of the object. -/
def binValChars (l : List Char) : Nat :=
  l.foldl (fun a c => 2 * a + (if c = '1' then 1 else 0)) 0

/-- Source `get_sign`: `int(self.sign_bit)` — the single character is `'0'` or
`'1'`, so its decimal value is its binary value. -/
def get_sign (p : Nat) : Nat := binValChars (sign_bit p)

/-- Source `get_exponent_raw`: `int(self.exponent_bits, 2)`. -/
def get_exponent_raw (p : Nat) : Nat := binValChars (exponent_bits p)

/-- Source `get_exponent_unbiased`: `self.get_exponent_raw() - 127`. -/
def get_exponent_unbiased (p : Nat) : Int := (get_exponent_raw p : Int) - 127

/-- Value `int(self.mantissa_bits, 2)` as used by `is_special`. -/
def get_mantissa_int (p : Nat) : Nat := binValChars (mantissa_bits p)

/-- The loop of `get_mantissa_value`: for each index `i` and bit `b` of
the mantissa string, `fraction += 2 ** (-(i + 1))` when `b == '1'`. -/
def mantissaFracAux : List Char → Nat → ℚ → ℚ
  | [], _, acc => acc
  | b :: rest, i, acc =>
    mantissaFracAux rest (i + 1) (if b = '1' then acc + (2 : ℚ) ^ (-(i + 1 : ℤ)) else acc)

/-- Source `get_mantissa_value`: `1.0 + fraction`. -/
def get_mantissa_value (p : Nat) : ℚ := 1 + mantissaFracAux (mantissa_bits p) 0 0

/-- Body of `is_special` on the two extracted fields. -/
def is_specialFields (e m : Nat) : Option String :=
  if e = 255 then (if m = 0 then some "Infinity" else some "NaN")
  else if e = 0 then (if m = 0 then some "Zero" else some "Denormalized")
  else none

/-- Source `is_special`: classifies from `get_exponent_raw()` and
`int(self.mantissa_bits, 2)`; returns `None` for normal numbers. -/
def is_special (p : Nat) : Option String :=
  is_specialFields (get_exponent_raw p) (get_mantissa_int p)

/-- The numeric reconstruction performed by `display`: when `is_special`
returns a tag, `display` prints the tag and returns without computing any
value (`none`); otherwise `calculated = sign_multiplier *
(2 ** exp_unbiased) * mantissa_val`. -/
def displayReconstruction (p : Nat) : Option ℚ :=
  match is_special p with
  | some _ => none
  | none =>
    some ((if get_sign p = 1 then (-1 : ℚ) else 1) *
      (2 : ℚ) ^ get_exponent_unbiased p * get_mantissa_value p)

/-- Errors raised by the textual decoders: `ValueError` from the length
check or from `int()`, `struct.error` from packing an out-of-range
integer with `struct.pack('!I', ...)`. -/
inductive PyError where
  | valueError (msg : String)
  | structError (msg : String)
deriving DecidableEq

/-- Source `binary_to_float`: length check, `int(binary_str, 2)`, then
`struct.pack('!I', as_int)` (which demands `0 ≤ as_int < 2^32`) and
`struct.unpack('!f', ...)`; the resulting float is represented by its
bit pattern. -/
def binary_to_float (s : String) : Except PyError Nat :=
  if s.length ≠ 32 then .error (.valueError "Binary string must be 32 bits")
  else
    match pyIntBase2 s.data with
    | none => .error (.valueError "invalid literal for int with base 2")
    | some n =>
      if n < 0 ∨ (2 : Int) ^ 32 ≤ n then .error (.structError "argument out of range")
      else .ok n.toNat

/-- The prefix strip of `hex_to_float`: `hex_str[2:]` when the string
starts with `0x` or `0X`. -/
def strip0x (l : List Char) : List Char :=
  match l with
  | c0 :: c1 :: rest => if c0 = '0' ∧ (c1 = 'x' ∨ c1 = 'X') then rest else c0 :: c1 :: rest
  | l => l

/-- Source `hex_to_float`: optional prefix strip, `int(hex_str, 16)`, then
`struct.pack('!I', as_int)` / `struct.unpack('!f', ...)`; the resulting
float is represented by its bit pattern. -/
def hex_to_float (s : String) : Except PyError Nat :=
  match pyIntBase16 (strip0x s.data) with
  | none => .error (.valueError "invalid literal for int with base 16")
  | some n =>
    if n < 0 ∨ (2 : Int) ^ 32 ≤ n then .error (.structError "argument out of range")
    else .ok n.toNat

/-- Modelled from the spec: `struct.pack('!f', 0.0)` — the platform
float encoder, outside `src/` — produces the IEEE 754 single-precision
pattern of `+0.0`, all 32 bits clear. -/
def pos_zero_pattern : Nat := 0x00000000

/-- Modelled from the spec: `struct.pack('!f', -0.0)` produces the
pattern of `-0.0`, sign bit set, all other bits clear. -/
def neg_zero_pattern : Nat := 0x80000000

/-- Modelled from the spec: `struct.pack('!f', float('inf'))` produces
the pattern of `+∞`: sign 0, exponent field all ones, mantissa 0. -/
def pos_inf_pattern : Nat := 0x7F800000

/-- Modelled from the spec: `struct.pack('!f', float('nan'))` produces
CPython's quiet NaN pattern: sign 0, exponent all ones, mantissa with the
quiet bit set. -/
def nan_pattern : Nat := 0x7FC00000

/-- Modelled from the spec: `struct.pack('!f', 1.0)` produces the
pattern of `1.0`: sign 0, exponent `127` (bias plus zero), mantissa 0. -/
def one_pattern : Nat := 0x3F800000

/-- The digit-accumulation step of `binValChars`. -/
def binStep (a : Nat) (c : Char) : Nat := 2 * a + (if c = '1' then 1 else 0)

theorem binValChars_def (l : List Char) : binValChars l = l.foldl binStep 0 := rfl

theorem natToBinChars_length (w : Nat) : ∀ n, (natToBinChars w n).length = w := by
  induction w with
  | zero => intro n; rfl
  | succ w ih => intro n; simp [natToBinChars, ih]

theorem natToBinChars_split (a b n : Nat) :
    natToBinChars (a + b) n = natToBinChars a (n / 2 ^ b) ++ natToBinChars b n := by
  induction b generalizing n with
  | zero => simp [natToBinChars]
  | succ b ih =>
    show natToBinChars ((a + b) + 1) n = _
    rw [natToBinChars, ih (n / 2), natToBinChars, List.append_assoc,
      Nat.div_div_eq_div_mul, ← pow_succ']

theorem natToBinChars_mem (w : Nat) : ∀ n, ∀ c ∈ natToBinChars w n, c = '0' ∨ c = '1' := by
  induction w with
  | zero => intro n c hc; simp [natToBinChars] at hc
  | succ w ih =>
    intro n c hc
    rw [natToBinChars] at hc
    rcases List.mem_append.1 hc with h | h
    · exact ih _ c h
    · rcases List.mem_singleton.1 h with rfl
      split <;> simp

theorem foldl_binStep_shift (l : List Char) (a : Nat) :
    l.foldl binStep a = a * 2 ^ l.length + l.foldl binStep 0 := by
  induction l generalizing a with
  | nil => simp
  | cons c t ih =>
    rw [List.foldl_cons, List.foldl_cons, ih (binStep a c), ih (binStep 0 c)]
    unfold binStep
    simp only [List.length_cons]
    ring

theorem binValChars_append (l1 l2 : List Char) :
    binValChars (l1 ++ l2) = binValChars l1 * 2 ^ l2.length + binValChars l2 := by
  rw [binValChars_def, binValChars_def, binValChars_def, List.foldl_append,
    foldl_binStep_shift l2 (List.foldl binStep 0 l1)]

theorem mod_pow_split (n w : Nat) :
    2 * (n / 2 % 2 ^ w) + n % 2 = n % 2 ^ (w + 1) := by
  have h1 : n / 2 % 2 ^ w = n % 2 ^ (w + 1) / 2 := by
    rw [← Nat.mod_mul_right_div_self, ← pow_succ']
  have h2 : n % 2 ^ (w + 1) % 2 = n % 2 :=
    Nat.mod_mod_of_dvd n (dvd_pow_self 2 w.succ_ne_zero)
  rw [h1, ← h2, Nat.div_add_mod]

theorem binValChars_natToBinChars (w : Nat) : ∀ n, binValChars (natToBinChars w n) = n % 2 ^ w := by
  induction w with
  | zero => intro n; simp [natToBinChars, binValChars_def, Nat.mod_one]
  | succ w ih =>
    intro n
    rw [natToBinChars, binValChars_append, ih, List.length_singleton, pow_one]
    have hbit : binValChars [if n % 2 = 1 then '1' else '0'] = n % 2 := by
      rcases Nat.mod_two_eq_zero_or_one n with h | h <;> simp [binValChars_def, binStep, h]
    rw [hbit, ← mod_pow_split n w]
    ring

theorem sign_bit_eq (p : Nat) : sign_bit p = natToBinChars 1 (p / 2 ^ 31) := by
  unfold sign_bit
  rw [show (32 : Nat) = 1 + 31 by norm_num, natToBinChars_split 1 31 p,
    List.take_append_of_le_length (by simp [natToBinChars_length]),
    List.take_of_length_le (by simp [natToBinChars_length])]

theorem exponent_bits_eq (p : Nat) : exponent_bits p = natToBinChars 8 (p / 2 ^ 23) := by
  unfold exponent_bits
  rw [show (32 : Nat) = 1 + 31 by norm_num, natToBinChars_split 1 31 p,
    List.drop_append_of_le_length (by simp [natToBinChars_length]),
    List.drop_eq_nil_of_le (by simp [natToBinChars_length]), List.nil_append,
    show (31 : Nat) = 8 + 23 by norm_num, natToBinChars_split 8 23 p,
    List.take_append_of_le_length (by simp [natToBinChars_length]),
    List.take_of_length_le (by simp [natToBinChars_length])]

theorem mantissa_bits_eq (p : Nat) : mantissa_bits p = natToBinChars 23 p := by
  unfold mantissa_bits
  rw [show (32 : Nat) = 9 + 23 by norm_num, natToBinChars_split 9 23 p,
    List.drop_append_of_le_length (by simp [natToBinChars_length]),
    List.drop_eq_nil_of_le (by simp [natToBinChars_length]), List.nil_append,
    List.take_of_length_le (by simp [natToBinChars_length])]

theorem get_sign_eq (p : Nat) : get_sign p = p / 2 ^ 31 % 2 := by
  rw [get_sign, sign_bit_eq, binValChars_natToBinChars, pow_one]

theorem get_exponent_raw_eq (p : Nat) : get_exponent_raw p = p / 2 ^ 23 % 2 ^ 8 := by
  rw [get_exponent_raw, exponent_bits_eq, binValChars_natToBinChars]

theorem get_mantissa_int_eq (p : Nat) : get_mantissa_int p = p % 2 ^ 23 := by
  rw [get_mantissa_int, mantissa_bits_eq, binValChars_natToBinChars]

theorem dropWhile_space_eq_self (l : List Char) (h : ∀ c ∈ l, isPySpace c = false) :
    l.dropWhile isPySpace = l := by
  match l with
  | [] => rfl
  | c :: t => rw [List.dropWhile_cons, h c (List.mem_cons_self c t)]; simp

theorem stripWs_eq_self (l : List Char) (h : ∀ c ∈ l, isPySpace c = false) :
    stripWs l = l := by
  unfold stripWs
  rw [dropWhile_space_eq_self l h,
    dropWhile_space_eq_self l.reverse (fun c hc => h c (List.mem_reverse.1 hc)),
    List.reverse_reverse]

theorem pyCore_bin (l : List Char) (h : ∀ c ∈ l, c = '0' ∨ c = '1') : ∀ acc : Nat,
    pyCore binDigitVal 2 acc l = some (l.foldl binStep acc) := by
  induction l with
  | nil => intro acc; rw [pyCore.eq_def]; rfl
  | cons c t ih =>
    intro acc
    have ht : ∀ x ∈ t, x = '0' ∨ x = '1' := fun x hx => h x (List.mem_cons_of_mem c hx)
    rcases h c (List.mem_cons_self c t) with rfl | rfl <;>
      · rw [pyCore.eq_def]
        simp [binDigitVal, binStep, ih ht]

theorem pyDigits_bin (l : List Char) (h : ∀ c ∈ l, c = '0' ∨ c = '1') (hne : l ≠ []) :
    pyDigits binDigitVal 2 l = some (binValChars l) := by
  match l with
  | [] => exact absurd rfl hne
  | c :: t =>
    have ht : ∀ x ∈ t, x = '0' ∨ x = '1' := fun x hx => h x (List.mem_cons_of_mem c hx)
    rcases h c (List.mem_cons_self c t) with rfl | rfl <;>
      simp [pyDigits, binDigitVal, binValChars_def, pyCore_bin t ht, binStep]

theorem pyBody_bin (l : List Char) (h : ∀ c ∈ l, c = '0' ∨ c = '1') (hne : l ≠ []) :
    pyBody binDigitVal 2 'b' 'B' l = some (binValChars l) := by
  match l with
  | [] => exact absurd rfl hne
  | [c] => simpa [pyBody] using pyDigits_bin [c] h (by simp)
  | c0 :: c1 :: rest =>
    have hcond : ¬(c0 = '0' ∧ (c1 = 'b' ∨ c1 = 'B')) := by
      rcases h c1 (by simp) with rfl | rfl <;> simp
    simp only [pyBody, hcond, if_false]
    exact pyDigits_bin _ h (by simp)

theorem pyIntBase2_bin (l : List Char) (h : ∀ c ∈ l, c = '0' ∨ c = '1') (hne : l ≠ []) :
    pyIntBase2 l = some (Int.ofNat (binValChars l)) := by
  have hsp : ∀ c ∈ l, isPySpace c = false := fun c hc => by
    rcases h c hc with rfl | rfl <;> rfl
  match l with
  | [] => exact absurd rfl hne
  | c :: t =>
    have hb := pyBody_bin (c :: t) h (by simp)
    rcases h c (List.mem_cons_self c t) with rfl | rfl <;>
      simp [pyIntBase2, pyIntParse, stripWs_eq_self _ hsp, hb]

theorem binValChars_cons (c : Char) (t : List Char) :
    binValChars (c :: t) = binStep 0 c * 2 ^ t.length + binValChars t := by
  rw [binValChars_def, List.foldl_cons, foldl_binStep_shift, ← binValChars_def]

theorem binValChars_lt (l : List Char) : binValChars l < 2 ^ l.length := by
  induction l with
  | nil => simp [binValChars_def]
  | cons c t ih =>
    have h1 := binValChars_cons c t
    have h2 : binStep 0 c ≤ 1 := by unfold binStep; split <;> simp
    have h3 : binStep 0 c * 2 ^ t.length ≤ 2 ^ t.length :=
      Nat.le_trans (Nat.mul_le_mul_right _ h2) (by simp)
    rw [h1, List.length_cons, pow_succ]
    omega

/-- C1: for every 32-bit pattern `p` (hence for every finite
single-precision float, represented by its pattern, sign of zero
included), rendering the 32-character binary string and decoding it with
`binary_to_float` returns exactly `p` — the float is recovered
bit-for-bit. -/
theorem round_trip_binary (p : Nat) (hp : p < 2 ^ 32) :
    binary_to_float (get_binary_representation p) = .ok p := by
  have hmem := natToBinChars_mem 32 p
  have hlen : (natToBinChars 32 p).length = 32 := natToBinChars_length 32 p
  have hne : natToBinChars 32 p ≠ [] := by
    intro h0
    rw [h0] at hlen
    simp at hlen
  have hparse := pyIntBase2_bin _ hmem hne
  have hval : binValChars (natToBinChars 32 p) = p := by
    rw [binValChars_natToBinChars]
    exact Nat.mod_eq_of_lt hp
  have hdata : (get_binary_representation p).data = natToBinChars 32 p := rfl
  have hslen : (get_binary_representation p).length = 32 := hlen
  have hrange : ¬(Int.ofNat p < 0 ∨ (2 : Int) ^ 32 ≤ Int.ofNat p) := by
    push_neg
    refine ⟨Int.ofNat_nonneg p, ?_⟩
    show (p : Int) < (2 : Int) ^ 32
    exact_mod_cast hp
  simp only [binary_to_float, hdata, hslen, hparse, hval]
  rw [if_neg (by simp), if_neg hrange]
  simp

/-- C1 witness at the pattern of single-precision `3.14159…`. -/
theorem round_trip_binary_witness :
    1078530011 < 2 ^ 32 ∧
      binary_to_float (get_binary_representation 1078530011) = .ok 1078530011 :=
  ⟨by norm_num, round_trip_binary 1078530011 (by norm_num)⟩

/-- C2: the three extracted fields recombine exactly:
`sign·2^31 + exponent·2^23 + mantissa = p`, i.e. the 1/8/23 field widths
partition the 32-bit pattern most-significant-first. -/
theorem field_partition (p : Nat) (hp : p < 2 ^ 32) :
    get_sign p * 2 ^ 31 + get_exponent_raw p * 2 ^ 23 + get_mantissa_int p = p := by
  rw [get_sign_eq, get_exponent_raw_eq, get_mantissa_int_eq]
  norm_num at hp ⊢
  omega

/-- C2 witness at the pattern of `-2.5` (sign 1, exponent 128, mantissa
`2^21`). -/
theorem field_partition_witness :
    3223322624 < 2 ^ 32 ∧
      get_sign 3223322624 * 2 ^ 31 + get_exponent_raw 3223322624 * 2 ^ 23 +
        get_mantissa_int 3223322624 = 3223322624 :=
  ⟨by norm_num, field_partition 3223322624 (by norm_num)⟩

/-- C6 (amended): `binary_to_float` raises for every input whose length
is not 32 and accepts every 32-character string of `0`/`1` characters,
returning its binary value; but (see the counterexample) some
32-character strings with characters outside `0`/`1` are also accepted,
because Python's `int(s, 2)` tolerates a sign, surrounding whitespace,
a `0b` marker and grouping underscores. -/
theorem binary_to_float_spec (s : String) :
    (s.length ≠ 32 →
      binary_to_float s = .error (.valueError "Binary string must be 32 bits")) ∧
    (s.length = 32 → (∀ c ∈ s.data, c = '0' ∨ c = '1') →
      binary_to_float s = .ok (binValChars s.data)) := by
  constructor
  · intro h
    simp only [binary_to_float, if_pos h]
  · intro hlen hbin
    have hlen' : s.data.length = 32 := hlen
    have hne : s.data ≠ [] := by
      intro h0
      rw [h0] at hlen'
      simp at hlen'
    have hparse := pyIntBase2_bin s.data hbin hne
    have hv : binValChars s.data < 2 ^ 32 := by
      have := binValChars_lt s.data
      rwa [hlen'] at this
    have hrange : ¬(Int.ofNat (binValChars s.data) < 0 ∨
        (2 : Int) ^ 32 ≤ Int.ofNat (binValChars s.data)) := by
      push_neg
      refine ⟨Int.ofNat_nonneg _, ?_⟩
      show (binValChars s.data : Int) < (2 : Int) ^ 32
      exact_mod_cast hv
    simp only [binary_to_float, hparse]
    rw [if_neg (by simp [hlen]), if_neg hrange]
    simp

/-- C6 witness: a short string is rejected with the length error, and a
well-formed 32-bit binary string (the pattern of `3.14159…`) is
accepted with its exact value. -/
theorem binary_to_float_spec_witness :
    binary_to_float "101" = .error (.valueError "Binary string must be 32 bits") ∧
    binary_to_float "01000000010010010000111111011011" = .ok 1078530011 := by
  constructor
  · exact (binary_to_float_spec "101").1 (by decide)
  · have h := (binary_to_float_spec "01000000010010010000111111011011").2
      (by decide) (by decide)
    rw [h]
    rfl

/-- C6 counterexample: the 32-character string `+` followed by 31 zeros
contains a character that is not `0`/`1`, yet `binary_to_float` accepts
it (Python's `int(s, 2)` parses the sign), contradicting the claim that
every such input fails. -/
theorem binary_to_float_accepts_plus :
    binary_to_float "+0000000000000000000000000000000" = .ok 0 := by
  rfl

/-- C7 (amended): after the optional `0x`/`0X` strip, `hex_to_float`
raises `ValueError` exactly when Python's base-16 parser rejects the
remainder, and raises `struct.error` — never truncating or wrapping —
whenever the parsed value is negative or exceeds 32 bits (e.g. the
9-digit `0xFFFFFFFFF`); but (see the counterexample) strings containing
non-hex-digit characters tolerated by `int(s, 16)` (sign, whitespace,
underscores, a second `0x` marker) are accepted rather than rejected. -/
theorem hex_to_float_spec (s : String) :
    (pyIntBase16 (strip0x s.data) = none →
      hex_to_float s = .error (.valueError "invalid literal for int with base 16")) ∧
    (∀ n : Int, pyIntBase16 (strip0x s.data) = some n → ((2 : Int) ^ 32 ≤ n ∨ n < 0) →
      hex_to_float s = .error (.structError "argument out of range")) ∧
    (∀ n : Int, pyIntBase16 (strip0x s.data) = some n → 0 ≤ n → n < 2 ^ 32 →
      hex_to_float s = .ok n.toNat) := by
  refine ⟨?_, ?_, ?_⟩
  · intro h
    simp only [hex_to_float, h]
  · intro n h hrange
    simp only [hex_to_float, h]
    rw [if_pos (by omega)]
  · intro n h h0 hlt
    simp only [hex_to_float, h]
    rw [if_neg (by omega)]

/-- C7 witness: the 9-hex-digit `0xFFFFFFFFF` overflows 32 bits and is
rejected by the range check, never wrapped; the well-formed
`0x40490FDB` decodes to the π pattern. -/
theorem hex_to_float_spec_witness :
    hex_to_float "0xFFFFFFFFF" = .error (.structError "argument out of range") ∧
    hex_to_float "0x40490FDB" = .ok 1078530011 := by
  constructor
  · exact (hex_to_float_spec "0xFFFFFFFFF").2.1 68719476735 (by rfl) (by norm_num)
  · have h := (hex_to_float_spec "0x40490FDB").2.2 1078530011 (by rfl)
      (by norm_num) (by norm_num)
    rw [h]
    rfl

/-- C7 counterexample: `+FF` contains `+`, which is not a hex digit,
yet `hex_to_float` accepts it and returns the value 255, contradicting
the claim that every input with a non-hex-digit character fails. -/
theorem hex_to_float_accepts_plus : hex_to_float "+FF" = .ok 255 := by
  rfl

/-- C3: over the full `256 × 2^23` field domain the classifier is total
and the five classes partition it exactly as specified: `255/0` is
Infinity, `255/nonzero` is NaN, `0/0` is Zero, `0/nonzero` is
Denormalized, and everything else (the code's `None`) is Normal. -/
theorem classification_partition (e m : Nat) (he : e < 256) (hm : m < 2 ^ 23) :
    (is_specialFields e m = some "Infinity" ↔ e = 255 ∧ m = 0) ∧
    (is_specialFields e m = some "NaN" ↔ e = 255 ∧ m ≠ 0) ∧
    (is_specialFields e m = some "Zero" ↔ e = 0 ∧ m = 0) ∧
    (is_specialFields e m = some "Denormalized" ↔ e = 0 ∧ m ≠ 0) ∧
    (is_specialFields e m = none ↔ 1 ≤ e ∧ e ≤ 254) := by
  unfold is_specialFields
  split_ifs with h1 h2 h3 h4 <;>
    refine ⟨?_, ?_, ?_, ?_, ?_⟩ <;> simp_all <;> omega

/-- C3 witness at the NaN corner `(255, 1)`. -/
theorem classification_partition_witness :
    is_specialFields 255 1 = some "NaN" :=
  (classification_partition 255 1 (by norm_num) (by norm_num)).2.1.mpr
    ⟨rfl, by norm_num⟩

/-- C10: `is_special` returns `None` exactly when the raw exponent lies
in `[1, 254]` (a Normal number); otherwise it returns one of the four
special tags, so callers get a tag for precisely the special classes and
a null value for Normal. -/
theorem is_special_none_iff_normal (p : Nat) :
    (is_special p = none ↔ 1 ≤ get_exponent_raw p ∧ get_exponent_raw p ≤ 254) ∧
    (is_special p ≠ none →
      is_special p = some "Infinity" ∨ is_special p = some "NaN" ∨
      is_special p = some "Zero" ∨ is_special p = some "Denormalized") := by
  have he : get_exponent_raw p < 256 := by
    rw [get_exponent_raw_eq]
    have := Nat.mod_lt (p / 2 ^ 23) (show 0 < 2 ^ 8 by norm_num)
    omega
  unfold is_special is_specialFields
  split_ifs with h1 h2 h3 h4 <;> refine ⟨?_, ?_⟩ <;> simp_all <;> omega

/-- C10 witness at the pattern of `1.0` (raw exponent 127, Normal). -/
theorem is_special_none_witness : is_special 1065353216 = none :=
  (is_special_none_iff_normal 1065353216).1.mpr (by constructor <;> decide)

theorem zpow_neg_succ_natCast (j : Nat) :
    (2 : ℚ) ^ (-(j + 1 : ℤ)) = ((2 : ℚ) ^ (j + 1))⁻¹ := by
  rw [show (-(j + 1 : ℤ)) = -((j + 1 : ℕ) : ℤ) by push_cast; ring, zpow_neg, zpow_natCast]

theorem fracAux_eq (l : List Char) : ∀ (k : Nat) (acc : ℚ),
    mantissaFracAux l k acc =
      acc + ∑ i ∈ Finset.range l.length,
        (if l.getD i '0' = '1' then ((2 : ℚ) ^ (k + i + 1))⁻¹ else 0) := by
  induction l with
  | nil => intro k acc; simp [mantissaFracAux]
  | cons c t ih =>
    intro k acc
    have hstep : mantissaFracAux (c :: t) k acc =
        mantissaFracAux t (k + 1) (acc + (if c = '1' then ((2 : ℚ) ^ (k + 1))⁻¹ else 0)) := by
      rw [mantissaFracAux]
      rw [zpow_neg_succ_natCast k]
      split <;> simp
    rw [hstep, ih (k + 1), List.length_cons, Finset.sum_range_succ']
    have hshift : ∀ i : Nat,
        (if (c :: t).getD (i + 1) '0' = '1' then ((2 : ℚ) ^ (k + (i + 1) + 1))⁻¹ else 0) =
        (if t.getD i '0' = '1' then ((2 : ℚ) ^ ((k + 1) + i + 1))⁻¹ else 0) := by
      intro i
      rw [List.getD_cons_succ, show k + (i + 1) + 1 = (k + 1) + i + 1 by omega]
    rw [Finset.sum_congr rfl fun i _ => (hshift i).symm]
    rw [List.getD_cons_zero, show k + 0 + 1 = k + 1 by omega]
    ring

theorem sum_bits_eq (l : List Char) :
    ∑ i ∈ Finset.range l.length,
        (if l.getD i '0' = '1' then ((2 : ℚ) ^ (i + 1))⁻¹ else 0) =
      (binValChars l : ℚ) / 2 ^ l.length := by
  induction l with
  | nil => simp [binValChars_def]
  | cons c t ih =>
    rw [List.length_cons, Finset.sum_range_succ']
    have hshift : ∀ i : Nat,
        (if (c :: t).getD (i + 1) '0' = '1' then ((2 : ℚ) ^ (i + 1 + 1))⁻¹ else 0) =
        (if t.getD i '0' = '1' then ((2 : ℚ) ^ (i + 1))⁻¹ else 0) / 2 := by
      intro i
      rw [List.getD_cons_succ]
      split
      · rw [pow_succ, mul_inv, div_eq_mul_inv]
      · rw [zero_div]
    rw [Finset.sum_congr rfl fun i _ => hshift i, ← Finset.sum_div, ih,
      List.getD_cons_zero, binValChars_cons]
    simp only [binStep, Nat.mul_zero, Nat.zero_add]
    push_cast
    by_cases hc : c = '1'
    · simp only [if_pos hc, one_mul]
      rw [show ((2 : ℚ) ^ (0 + 1))⁻¹ = 2⁻¹ by norm_num, div_div, ← pow_succ,
        eq_div_iff (show ((2 : ℚ) ^ (t.length + 1)) ≠ 0 by positivity), add_mul,
        div_mul_cancel₀ _ (show ((2 : ℚ) ^ (t.length + 1)) ≠ 0 by positivity)]
      ring
    · simp only [if_neg hc, zero_mul, zero_add, add_zero]
      rw [div_div, ← pow_succ]

/-- C4: `get_mantissa_value` always returns
`1 + Σ_{i=1..23} bit_i · 2^(-i)` (bits indexed from the most significant
mantissa bit; below the sum runs over `i ∈ range 23` with weight
`2^(-(i+1))`), equivalently `1 + mantissa/2^23`; the implicit leading 1
is included for every pattern, with no regard to its classification
(Normal, Denormalized or special). -/
theorem mantissa_value_formula (p : Nat) :
    get_mantissa_value p =
      1 + ∑ i ∈ Finset.range 23,
        (if (mantissa_bits p).getD i '0' = '1' then (2 : ℚ) ^ (-(i + 1 : ℤ)) else 0) ∧
    get_mantissa_value p = 1 + (get_mantissa_int p : ℚ) / 2 ^ 23 := by
  have hlen : (mantissa_bits p).length = 23 := by
    rw [mantissa_bits_eq, natToBinChars_length]
  have hsum : get_mantissa_value p =
      1 + ∑ i ∈ Finset.range 23,
        (if (mantissa_bits p).getD i '0' = '1' then ((2 : ℚ) ^ (i + 1))⁻¹ else 0) := by
    rw [get_mantissa_value, fracAux_eq, hlen]
    simp
  have hconv : ∑ i ∈ Finset.range 23,
      (if (mantissa_bits p).getD i '0' = '1' then ((2 : ℚ) ^ (i + 1))⁻¹ else 0) =
      ∑ i ∈ Finset.range 23,
      (if (mantissa_bits p).getD i '0' = '1' then (2 : ℚ) ^ (-(i + 1 : ℤ)) else 0) :=
    Finset.sum_congr rfl fun i _ => by rw [zpow_neg_succ_natCast]
  have h2 := sum_bits_eq (mantissa_bits p)
  rw [hlen] at h2
  constructor
  · rw [hsum, hconv]
  · rw [hsum, h2]
    rfl

theorem fracAux_zeros (l : List Char) (h : ∀ c ∈ l, c ≠ '1') : ∀ (k : Nat) (acc : ℚ),
    mantissaFracAux l k acc = acc := by
  induction l with
  | nil => intro k acc; rfl
  | cons c t ih =>
    intro k acc
    rw [mantissaFracAux, if_neg (h c (List.mem_cons_self c t)),
      ih (fun x hx => h x (List.mem_cons_of_mem c hx))]

/-- C5 (code bug): on a Denormalized pattern (here pattern 1: raw
exponent 0, mantissa 1) `display` takes the special-value early return
and computes no numeric reconstruction at all — neither the subnormal
formula `(-1)^sign · 2^(-126) · (0.mantissa)` the spec prescribes, nor
the normal-form formula. -/
theorem denormal_not_reconstructed :
    is_special 1 = some "Denormalized" ∧ displayReconstruction 1 = none := by
  constructor <;> rfl

/-- C8: the special-value patterns produced by `encode` carry exactly
the specified fields and classifications: `+0.0` → sign 0/exp 0/man 0,
Zero; `-0.0` → sign 1/exp 0/man 0, Zero; `+∞` → sign 0/exp 255/man 0,
Infinity; NaN → exp 255, man ≠ 0, NaN. -/
theorem special_value_encodings :
    get_sign pos_zero_pattern = 0 ∧ get_exponent_raw pos_zero_pattern = 0 ∧
    get_mantissa_int pos_zero_pattern = 0 ∧ is_special pos_zero_pattern = some "Zero" ∧
    get_sign neg_zero_pattern = 1 ∧ get_exponent_raw neg_zero_pattern = 0 ∧
    get_mantissa_int neg_zero_pattern = 0 ∧ is_special neg_zero_pattern = some "Zero" ∧
    get_sign pos_inf_pattern = 0 ∧ get_exponent_raw pos_inf_pattern = 255 ∧
    get_mantissa_int pos_inf_pattern = 0 ∧ is_special pos_inf_pattern = some "Infinity" ∧
    get_exponent_raw nan_pattern = 255 ∧ get_mantissa_int nan_pattern ≠ 0 ∧
    is_special nan_pattern = some "NaN" := by
  decide

/-- C9: the pattern of `1.0` renders as the binary string
`00111111100000000000000000000000` whose integer value is `0x3F800000`,
with raw exponent 127, unbiased exponent 0, mantissa value 1 and
reconstructed value 1. -/
theorem one_point_zero_example :
    get_binary_representation one_pattern = "00111111100000000000000000000000" ∧
    binValChars (get_binary_representation one_pattern).data = 0x3F800000 ∧
    get_exponent_raw one_pattern = 127 ∧
    get_exponent_unbiased one_pattern = 0 ∧
    get_mantissa_value one_pattern = 1 ∧
    displayReconstruction one_pattern = some 1 := by
  have hz : ∀ c ∈ mantissa_bits one_pattern, c ≠ '1' := by decide
  have hmv : get_mantissa_value one_pattern = 1 := by
    rw [get_mantissa_value, fracAux_zeros _ hz]
    norm_num
  have hnone : is_special one_pattern = none := by decide
  have hsign : get_sign one_pattern = 0 := by decide
  have hunb : get_exponent_unbiased one_pattern = 0 := by decide
  refine ⟨by decide, by decide, by decide, hunb, hmv, ?_⟩
  simp only [displayReconstruction, hnone, hsign, hunb, hmv]
  norm_num

end IEEE754
